import Mathlib

/-!
Verification of the `mbedcrypto` cipher core (`src/cipher.cpp`) against its
natural-language specification.

The repository is a thin execution engine over an external primitive library
(mbedtls).  The primitive operations (`mbedtls_cipher_update`,
`mbedtls_cipher_crypt`, `mbedtls_cipher_auth_encrypt`, ...) are external
collaborators; they are modelled as abstract parameters (records of
functions), and theorems state their hypotheses as the primitive contracts
documented in the spec (section 6).  Byte buffers are `List Nat`;
`std::string` allocation / `resize` and raw-pointer writes are modelled
explicitly by `resize` and `writeAt`.  C++ exceptions are `Except Error`.
-/

namespace Mbedcrypto

/-- A byte buffer (`buffer_t` / `buffer_view_t` in the source). -/
abbrev Buffer := List Nat

/-- `MBEDTLS_ERR_CIPHER_FULL_BLOCK_EXPECTED` (-0x6280). -/
def MBEDTLS_ERR_CIPHER_FULL_BLOCK_EXPECTED : Int := -25216

/-- `MBEDTLS_ERR_CIPHER_AUTH_FAILED` (-0x6300). -/
def MBEDTLS_ERR_CIPHER_AUTH_FAILED : Int := -25344

/-- Block-mode category of a cipher type (enum `cipher_bm`), supplied by the
algorithm registry. -/
inductive cipher_bm
  | none
  | stream
  | ecb
  | cbc
  | cfb
  | ofb
  | ctr
  | gcm
  | ccm
  | xts
deriving DecidableEq, Repr

/-- Padding strategy (enum `padding_t`). -/
inductive padding_t
  | none
  | pkcs7
  | one_and_zeros
  | zeros_and_len
  | zeros
deriving DecidableEq, Repr

/-- Direction of a keyed operation (`cipher::mode`). -/
inductive cipher_mode
  | encrypt_mode
  | decrypt_mode
deriving DecidableEq, Repr

/-- Errors thrown by the engine: the named exception kinds of
`exception.hpp` plus the generic `exception{code, function}` wrapper around
a non-zero primitive return code. -/
inductive Error
  | unknown_cipher
  | usage_error (msg : String)
  | aead_error
  | gcm_error
  | exception (code : Int) (func : String)
deriving DecidableEq, Repr

/-- `mbedcrypto_c_call`: invoke a primitive returning an `int`; a non-zero
return throws `exception{ret, tag}`. -/
def c_call (tag : String) (ret : Int) : Except Error Unit :=
  if ret = 0 then .ok () else .error (.exception ret tag)

/-- `std::string::resize(n)`: truncate to `n` bytes, or extend with zero
bytes. -/
def resize (buf : Buffer) (n : Nat) : Buffer :=
  buf.take n ++ List.replicate (n - buf.length) 0

/-- A primitive writing `data` into a caller buffer at byte offset `off`
(raw-pointer output parameter of the C API). -/
def writeAt (buf : Buffer) (off : Nat) (data : Buffer) : Buffer :=
  buf.take off ++ data ++ buf.drop (off + data.length)

/-! ## The streaming primitive (the `mbedtls_cipher_context_t` operations)

A streaming primitive has an abstract running-state type `σ`.  Each
operation returns the successor state together with its `int` return code;
`update`/`finish` additionally return the bytes they wrote through the
output pointer, and the value (if any) they stored through the `*olen`
output parameter — `Option.none` models an `olen` variable the primitive
left untouched. -/

/-- Result of one `mbedtls_cipher_update` / `mbedtls_cipher_finish` call. -/
structure UpdResult (σ : Type) where
  st : σ
  ret : Int
  written : Buffer
  olen : Option Nat

/-- The external streaming primitive operations used by `cipher_impl`. -/
structure StreamPrim (σ : Type) where
  set_iv : σ → Buffer → σ × Int
  reset : σ → σ × Int
  set_padding : σ → padding_t → σ × Int
  update : σ → Buffer → UpdResult σ
  finish : σ → UpdResult σ

/-- The for-loop of `cipher_impl::update_chunked` (lines 99-114): `n`
remaining iterations, input index `iidx`, output index `oidx`.  Each call
feeds exactly one block `achunk[iidx .. iidx+bsize)`; the primitive's bytes
land at `poutput + oidx`; a negative return code exits immediately with that
code, otherwise `oidx` advances by the reported `usize` (a fresh variable
initialised to 0, hence `getD 0`). -/
def updateChunkedGo {σ : Type} (p : StreamPrim σ) (bsize : Nat) (achunk : Buffer) :
    Nat → σ → Nat → Nat → Buffer → σ × Int × Buffer × Nat
  | 0, s, _, oidx, buf => (s, 0, buf, oidx)
  | n+1, s, iidx, oidx, buf =>
    let r := p.update s ((achunk.drop iidx).take bsize)
    let buf' := writeAt buf oidx r.written
    if r.ret < 0 then (r.st, r.ret, buf', oidx)
    else updateChunkedGo p bsize achunk n r.st (iidx + bsize) (oidx + r.olen.getD 0) buf'

/-- `cipher_impl::update_chunked` (lines 90-118).  Returns the new primitive
state, the `int` return value, the output buffer after all raw-pointer
writes, and the value assigned to the by-reference `osize` parameter
(`Option.none` when the function returned without assigning it). -/
def update_chunked {σ : Type} (p : StreamPrim σ) (bsize : Nat) (s : σ)
    (achunk : Buffer) (buf : Buffer) : σ × Int × Buffer × Option Nat :=
  if achunk.length % bsize ≠ 0 then
    (s, MBEDTLS_ERR_CIPHER_FULL_BLOCK_EXPECTED, buf, Option.none)
  else
    let r := updateChunkedGo p bsize achunk (achunk.length / bsize) s 0 0 buf
    if r.2.1 < 0 then (r.1, r.2.1, r.2.2.1, Option.none)
    else (r.1, 0, r.2.2.1, Option.some r.2.2.2)

/-! ## The cipher context (`cipher_impl` + the public `cipher` members) -/

/-- The mutable state of a `cipher` object: the primitive context plus the
remembered IV (`cipher_impl::iv_data_`). -/
structure CtxState (σ : Type) where
  ctx : σ
  iv_data : Buffer

/-- `cipher::iv` / `cipher_impl::iv` (lines 67-71, 407-411): remember the
IV, then install it on the primitive. -/
def cipher.iv {σ : Type} (p : StreamPrim σ) (st : CtxState σ) (iv_data : Buffer) :
    Except Error (CtxState σ) :=
  let r := p.set_iv st.ctx iv_data
  if r.2 ≠ 0 then .error (.exception r.2 "mbedtls_cipher_set_iv")
  else .ok ⟨r.1, iv_data⟩

/-- `cipher::padding` / `cipher_impl::padding` (lines 82-87, 419-423): a
`padding_t::none` request does nothing at all; any other mode is forwarded
to `mbedtls_cipher_set_padding_mode`. -/
def cipher.padding {σ : Type} (p : StreamPrim σ) (st : CtxState σ) (pad : padding_t) :
    Except Error (CtxState σ) :=
  if pad = padding_t.none then .ok st
  else
    let r := p.set_padding st.ctx pad
    if r.2 ≠ 0 then .error (.exception r.2 "mbedtls_cipher_set_padding_mode")
    else .ok ⟨r.1, st.iv_data⟩

/-- `cipher::start` (lines 425-429): re-install the remembered IV
(`reset_last_iv`, which routes through `cipher_impl::iv`), then
`mbedtls_cipher_reset`. -/
def cipher.start {σ : Type} (p : StreamPrim σ) (st : CtxState σ) :
    Except Error (CtxState σ) :=
  match cipher.iv p st st.iv_data with
  | .error e => .error e
  | .ok st1 =>
    let r := p.reset st1.ctx
    if r.2 ≠ 0 then .error (.exception r.2 "mbedtls_cipher_reset")
    else .ok ⟨r.1, st1.iv_data⟩

/-- `cipher::update(buffer_view_t) -> buffer_t` (lines 431-453): allocate
`input_length + block_size + 32`, drive the chunk driver (ECB) or one
primitive call (other modes), throw on any non-zero code, shrink to the
reported size. -/
def cipher.update {σ : Type} (p : StreamPrim σ) (bm : cipher_bm) (bsize : Nat)
    (st : CtxState σ) (input : Buffer) : Except Error (CtxState σ × Buffer) :=
  let osize := input.length + bsize + 32
  let buf := List.replicate osize 0
  if bm = cipher_bm.ecb then
    let r := update_chunked p bsize st.ctx input buf
    if r.2.1 ≠ 0 then .error (.exception r.2.1 "update")
    else .ok (⟨r.1, st.iv_data⟩, resize r.2.2.1 (r.2.2.2.getD osize))
  else
    let r := p.update st.ctx input
    if r.ret ≠ 0 then .error (.exception r.ret "mbedtls_cipher_update")
    else .ok (⟨r.st, st.iv_data⟩, resize (writeAt buf 0 r.written) (r.olen.getD osize))

/-- `cipher::finish() -> buffer_t` (lines 495-505): allocate
`block_size + 32`, call `mbedtls_cipher_finish`, throw on non-zero, shrink
to the reported size. -/
def cipher.finish {σ : Type} (p : StreamPrim σ) (bsize : Nat) (st : CtxState σ) :
    Except Error (CtxState σ × Buffer) :=
  let osize := bsize + 32
  let buf := List.replicate osize 0
  let r := p.finish st.ctx
  if r.ret ≠ 0 then .error (.exception r.ret "mbedtls_cipher_finish")
  else .ok (⟨r.st, st.iv_data⟩, resize (writeAt buf 0 r.written) (r.olen.getD osize))

/-- The `noexcept` raw-pointer overload `cipher::update(buffer_view_t,
unsigned char*, size_t&)` (lines 483-493): returns the numeric code of the
chunk driver (ECB) or of `mbedtls_cipher_update` directly; the result's last
component is the final value of the caller's `output_size` variable (initial
value `output_size`, overwritten only where the callee assigns it). -/
def cipher.updateNX {σ : Type} (p : StreamPrim σ) (bm : cipher_bm) (bsize : Nat)
    (st : CtxState σ) (input : Buffer) (output : Buffer) (output_size : Nat) :
    CtxState σ × Int × Buffer × Nat :=
  if bm = cipher_bm.ecb then
    let r := update_chunked p bsize st.ctx input output
    (⟨r.1, st.iv_data⟩, r.2.1, r.2.2.1, r.2.2.2.getD output_size)
  else
    let r := p.update st.ctx input
    (⟨r.st, st.iv_data⟩, r.ret, writeAt output 0 r.written, r.olen.getD output_size)

/-- The `noexcept` overload `cipher::finish(unsigned char*, size_t&)`
(lines 519-522): returns `mbedtls_cipher_finish`'s code directly. -/
def cipher.finishNX {σ : Type} (p : StreamPrim σ) (st : CtxState σ)
    (output : Buffer) (output_size : Nat) : CtxState σ × Int × Buffer × Nat :=
  let r := p.finish st.ctx
  (⟨r.st, st.iv_data⟩, r.ret, writeAt output 0 r.written, r.olen.getD output_size)

/-! ## The one-shot crypt engine (`crypt_engine`, lines 124-229)

`crypt_engine` creates a fresh context per call; its primitive interface is
`mbedtls_cipher_crypt` plus the setup chain.  `mbedtls_cipher_crypt` is a
whole-buffer operation on a freshly reset context: it is modelled as a pure
function of the direction, the installed IV and the input, returning its
return code and the bytes written (whose count is the value it reports
through `*olen`, per its documented contract). -/

/-- The external primitive operations used by the one-shot engine, for one
fixed (cipher type, padding, key) configuration. -/
structure CryptPrim where
  setup_ret : Int
  set_padding_ret : padding_t → Int
  set_iv_ret : Buffer → Int
  setkey_ret : Buffer → cipher_mode → Int
  crypt : cipher_mode → Buffer → Buffer → Int × Buffer

/-- The fields of `crypt_engine` fixed by its constructor. -/
structure crypt_engine where
  block_mode : cipher_bm
  block_size : Nat
  input_size : Nat
  chunks : Nat
deriving DecidableEq, Repr

/-- `crypt_engine`'s constructor (lines 133-162): run the setup chain
(`setup`, `padding`, `iv`, `key`), then validate ECB input size and compute
the chunk count.  `bm` and `bsize` are the registry's block mode and block
size for the cipher type. -/
def crypt_engine.init (bm : cipher_bm) (bsize : Nat) (p : CryptPrim)
    (pad : padding_t) (iv key input : Buffer) (m : cipher_mode) :
    Except Error crypt_engine := do
  c_call "mbedtls_cipher_setup" p.setup_ret
  if pad = padding_t.none then pure ()
  else c_call "mbedtls_cipher_set_padding_mode" (p.set_padding_ret pad)
  c_call "mbedtls_cipher_set_iv" (p.set_iv_ret iv)
  c_call "mbedtls_cipher_setkey" (p.setkey_ret key m)
  if bm = cipher_bm.ecb then
    if input.length = 0 ∨ input.length % bsize ≠ 0 then
      throw (Error.usage_error
        "ecb cipher block: a valid input size must be dividable by block size")
    else
      pure ⟨bm, bsize, input.length, input.length / bsize⟩
  else
    pure ⟨bm, bsize, input.length, 1⟩

/-- `crypt_engine::output_size` (lines 164-166). -/
def crypt_engine.output_size (e : crypt_engine) : Nat :=
  32 + e.input_size + e.block_size

/-- The multi-chunk loop of `crypt_engine::compute` (lines 192-207): one
`mbedtls_cipher_crypt` call per block; `mbedcrypto_c_call` throws on any
non-zero code; the destination pointer advances by `block_size` while the
accumulated `osize` advances by the per-call reported length. -/
def ecbCryptLoop (crypt1 : Buffer → Int × Buffer) (bsize : Nat) (input : Buffer) :
    Nat → Nat → Nat → Buffer → Nat → Except Error (Buffer × Nat)
  | 0, _, _, buf, osize => .ok (buf, osize)
  | n+1, iidx, oidx, buf, osize =>
    let r := crypt1 ((input.drop iidx).take bsize)
    if r.1 ≠ 0 then .error (.exception r.1 "mbedtls_cipher_crypt")
    else ecbCryptLoop crypt1 bsize input n (iidx + bsize) (oidx + bsize)
      (writeAt buf oidx r.2) (osize + r.2.length)

/-- The sequence of per-block primitive results underlying `ecbCryptLoop`:
`n` blocks taken from the front of the remaining input, stopping at the
first call whose return code is non-zero (which `mbedcrypto_c_call` turns
into a thrown exception). -/
def ecbList (crypt1 : Buffer → Int × Buffer) (bsize : Nat) :
    Nat → Buffer → Except Error (List Buffer)
  | 0, _ => .ok []
  | n+1, rest =>
    let r := crypt1 (rest.take bsize)
    if r.1 ≠ 0 then .error (.exception r.1 "mbedtls_cipher_crypt")
    else (ecbList crypt1 bsize n (rest.drop bsize)).map (fun ws => r.2 :: ws)

/-- `crypt_engine::compute` (lines 168-212): allocate
`32 + input_size + block_size`, then either one whole-buffer crypt call
(`chunks_ == 1`) or the per-block loop, and shrink to the actual total. -/
def crypt_engine.compute (e : crypt_engine) (p : CryptPrim) (m : cipher_mode)
    (iv input : Buffer) : Except Error Buffer :=
  let buf := List.replicate e.output_size 0
  if e.chunks = 1 then
    let r := p.crypt m iv input
    if r.1 ≠ 0 then .error (.exception r.1 "mbedtls_cipher_crypt")
    else .ok (resize (writeAt buf 0 r.2) r.2.length)
  else
    match ecbCryptLoop (p.crypt m iv) e.block_size input e.chunks 0 0 buf 0 with
    | .error err => .error err
    | .ok (buf', osize) => .ok (resize buf' osize)

/-- `crypt_engine::run`, the body of `cipher::encrypt` (lines 295-303). -/
def cipher.encrypt (bm : cipher_bm) (bsize : Nat) (p : CryptPrim)
    (pad : padding_t) (iv key input : Buffer) : Except Error Buffer :=
  (crypt_engine.init bm bsize p pad iv key input cipher_mode.encrypt_mode).bind
    (fun e => e.compute p cipher_mode.encrypt_mode iv input)

/-- `crypt_engine::run`, the body of `cipher::decrypt` (lines 305-313). -/
def cipher.decrypt (bm : cipher_bm) (bsize : Nat) (p : CryptPrim)
    (pad : padding_t) (iv key input : Buffer) : Except Error Buffer :=
  (crypt_engine.init bm bsize p pad iv key input cipher_mode.decrypt_mode).bind
    (fun e => e.compute p cipher_mode.decrypt_mode iv input)

/-! ## The AEAD engine (lines 323-405) -/

/-- The external primitive operations used by the one-shot AEAD engine, for
one fixed cipher type.  `auth_encrypt iv ad input` returns the return code,
the ciphertext bytes written (whose count is reported through `*olen`), and
the bytes written into the 16-byte tag buffer; `auth_decrypt iv ad tag
input` returns the return code and the plaintext bytes written. -/
structure AeadPrim where
  setup_ret : Int
  setkey_ret : Buffer → cipher_mode → Int
  block_size : Nat
  auth_encrypt : Buffer → Buffer → Buffer → Int × Buffer × Buffer
  auth_decrypt : Buffer → Buffer → Buffer → Buffer → Int × Buffer

/-- `cipher::encrypt_aead` (lines 323-360): setup, install key (encrypt),
allocate output of `input_length + block_size` and a 16-byte tag, invoke
the combined authenticate-and-encrypt (throwing on non-zero), shrink the
output to the reported length. -/
def cipher.encrypt_aead (p : AeadPrim) (iv key ad input : Buffer) :
    Except Error (Buffer × Buffer) := do
  c_call "mbedtls_cipher_setup" p.setup_ret
  c_call "mbedtls_cipher_setkey" (p.setkey_ret key cipher_mode.encrypt_mode)
  let olen := input.length + p.block_size
  let output := List.replicate olen 0
  let tag := List.replicate 16 0
  let r := p.auth_encrypt iv ad input
  c_call "mbedtls_cipher_auth_encrypt" r.1
  pure (writeAt tag 0 r.2.2, resize (writeAt output 0 r.2.1) r.2.1.length)

/-- `cipher::decrypt_aead` (lines 362-405): setup, install key (decrypt),
invoke the combined authenticate-and-decrypt, shrink the output to the
reported length; `MBEDTLS_ERR_CIPHER_AUTH_FAILED` yields `(false, output)`,
`0` yields `(true, output)`, anything else throws `exception{ret}`. -/
def cipher.decrypt_aead (p : AeadPrim) (iv key ad tag input : Buffer) :
    Except Error (Bool × Buffer) := do
  c_call "mbedtls_cipher_setup" p.setup_ret
  c_call "mbedtls_cipher_setkey" (p.setkey_ret key cipher_mode.decrypt_mode)
  let olen := input.length + p.block_size
  let output := List.replicate olen 0
  let r := p.auth_decrypt iv ad tag input
  let res := resize (writeAt output 0 r.2) r.2.length
  if r.1 = MBEDTLS_ERR_CIPHER_AUTH_FAILED then pure (false, res)
  else if r.1 = 0 then pure (true, res)
  else throw (.exception r.1 "decrypt_aead")

/-! ## A reference chunk driver written from the specification

Spec section 4.2: the chunk driver "splits an arbitrary-length input into
exact block-size chunks and feeds the Cipher Context one block at a time",
accumulating "the primitive's declared output length per call", aborting on
a failing primitive call with that exact code, and reporting a
non-block-aligned length as `FullBlockExpected` "checked before any
primitive call".  This pair of definitions follows those words over an
explicit list of blocks; the refinement theorem compares it with the
source-translated `update_chunked`. -/

/-- Split a buffer into `n` consecutive `bsize`-byte blocks. -/
def splitBlocks (bsize : Nat) : Nat → Buffer → List Buffer
  | 0, _ => []
  | n+1, input => input.take bsize :: splitBlocks bsize n (input.drop bsize)

/-- Feed the primitive one block per call, accumulating reported lengths,
stopping at the first failing (negative) primitive code. -/
def specDriverGo {σ : Type} (p : StreamPrim σ) :
    List Buffer → σ → Nat → Buffer → σ × Int × Buffer × Nat
  | [], s, oidx, buf => (s, 0, buf, oidx)
  | b :: bl, s, oidx, buf =>
    let r := p.update s b
    let buf' := writeAt buf oidx r.written
    if r.ret < 0 then (r.st, r.ret, buf', oidx)
    else specDriverGo p bl r.st (oidx + r.olen.getD 0) buf'

/-- The specification's chunk driver: alignment check first, then
block-by-block feeding. -/
def specChunkDriver {σ : Type} (p : StreamPrim σ) (bsize : Nat) (s : σ)
    (achunk : Buffer) (buf : Buffer) : σ × Int × Buffer × Option Nat :=
  if achunk.length % bsize ≠ 0 then
    (s, MBEDTLS_ERR_CIPHER_FULL_BLOCK_EXPECTED, buf, Option.none)
  else
    let r := specDriverGo p (splitBlocks bsize (achunk.length / bsize) achunk) s 0 buf
    if r.2.1 < 0 then (r.1, r.2.1, r.2.2.1, Option.none)
    else (r.1, 0, r.2.2.1, Option.some r.2.2.2)

/-! ## Concrete primitive instances (used for witnesses and
counterexamples) -/

/-- A trivial streaming primitive: the state stores the IV, `update` echoes
its input and reports its length, `finish` writes nothing. -/
def idStream : StreamPrim Buffer where
  set_iv := fun _ d => (d, 0)
  reset := fun s => (s, 0)
  set_padding := fun s _ => (s, 0)
  update := fun s x => ⟨s, 0, x, Option.some x.length⟩
  finish := fun s => ⟨s, 0, [], Option.some 0⟩

/-- A streaming primitive whose first `update` call returns the positive
code 5 (writing nothing), and which succeeds afterwards. -/
def posRetStream : StreamPrim Nat where
  set_iv := fun s _ => (s, 0)
  reset := fun s => (s, 0)
  set_padding := fun s _ => (s, 0)
  update := fun s b =>
    if s = 0 then ⟨1, 5, [], Option.some 0⟩ else ⟨s + 1, 0, b, Option.some b.length⟩
  finish := fun s => ⟨s, 0, [], Option.some 0⟩

/-- A one-shot primitive that accepts everything and encrypts by identity. -/
def idCrypt : CryptPrim where
  setup_ret := 0
  set_padding_ret := fun _ => 0
  set_iv_ret := fun _ => 0
  setkey_ret := fun _ _ => 0
  crypt := fun _ _ input => (0, input)

/-- An AEAD primitive whose tag check always succeeds. -/
def okAead : AeadPrim where
  setup_ret := 0
  setkey_ret := fun _ _ => 0
  block_size := 16
  auth_encrypt := fun _ _ input => (0, input, List.replicate 16 7)
  auth_decrypt := fun _ _ _ input => (0, input)

/-- An AEAD primitive whose tag check always fails with
`MBEDTLS_ERR_CIPHER_AUTH_FAILED`. -/
def authFailAead : AeadPrim where
  setup_ret := 0
  setkey_ret := fun _ _ => 0
  block_size := 16
  auth_encrypt := fun _ _ input => (0, input, List.replicate 16 7)
  auth_decrypt := fun _ _ _ input => (MBEDTLS_ERR_CIPHER_AUTH_FAILED, input)

/-! ## A full streamed message (start, a sequence of updates, finish) -/

/-- Run a sequence of `cipher::update` calls, collecting each returned
buffer. -/
def run_updates {σ : Type} (p : StreamPrim σ) (bm : cipher_bm) (bsize : Nat) :
    List Buffer → CtxState σ → Except Error (CtxState σ × List Buffer)
  | [], st => .ok (st, [])
  | c :: cs, st =>
    match cipher.update p bm bsize st c with
    | .error e => .error e
    | .ok (st', out) =>
      match run_updates p bm bsize cs st' with
      | .error e => .error e
      | .ok (st'', outs) => .ok (st'', out :: outs)

/-- One whole streamed message: `start()`, the update sequence, then
`finish()`; returns the final context, the per-update outputs and the
final flush. -/
def run_message {σ : Type} (p : StreamPrim σ) (bm : cipher_bm) (bsize : Nat)
    (msg : List Buffer) (st : CtxState σ) :
    Except Error (CtxState σ × List Buffer × Buffer) :=
  match cipher.start p st with
  | .error e => .error e
  | .ok st1 =>
    match run_updates p bm bsize msg st1 with
    | .error e => .error e
    | .ok (st2, outs) =>
      match cipher.finish p bsize st2 with
      | .error e => .error e
      | .ok (st3, fin) => .ok (st3, outs, fin)


/-! ## Library lemmas about buffers and error plumbing -/

theorem resize_length (buf : Buffer) (n : Nat) : (resize buf n).length = n := by
  simp [resize, List.length_take]
  omega

theorem writeAt_zero (buf : Buffer) (w : Buffer) :
    writeAt buf 0 w = w ++ buf.drop w.length := by
  simp [writeAt]

/-- Writing at offset 0 and shrinking to the written length recovers exactly
the written bytes. -/
theorem resize_writeAt_zero (buf : Buffer) (w : Buffer) :
    resize (writeAt buf 0 w) w.length = w := by
  simp [resize, writeAt, List.take_append_eq_append_take]

theorem writeAt_length (buf : Buffer) (off : Nat) (data : Buffer)
    (h : off + data.length ≤ buf.length) :
    (writeAt buf off data).length = buf.length := by
  simp [writeAt, List.length_take]
  omega

/-! ## Generic reduction lemmas -/

theorem exceptBindOk {α β : Type} (a : α) (f : α → Except Error β) :
    ((Except.ok a : Except Error α) >>= f) = f a := rfl

theorem exceptBindErr {α β : Type} (e : Error) (f : α → Except Error β) :
    ((Except.error e : Except Error α) >>= f) = .error e := rfl

theorem exceptThrow {α : Type} (e : Error) :
    (throw e : Except Error α) = .error e := rfl

theorem c_call_zero (tag : String) {ret : Int} (h : ret = 0) :
    c_call tag ret = .ok () := by simp [c_call, h]

theorem c_call_nonzero (tag : String) {ret : Int} (h : ret ≠ 0) :
    c_call tag ret = .error (.exception ret tag) := by simp [c_call, h]

theorem updateChunkedGo_eq_spec {σ : Type} (p : StreamPrim σ) (bsize : Nat)
    (achunk : Buffer) :
    ∀ (n : Nat) (s : σ) (iidx oidx : Nat) (buf : Buffer),
      updateChunkedGo p bsize achunk n s iidx oidx buf =
        specDriverGo p (splitBlocks bsize n (achunk.drop iidx)) s oidx buf := by
  intro n
  induction n with
  | zero => intro s iidx oidx buf; rfl
  | succ n ih =>
    intro s iidx oidx buf
    simp only [updateChunkedGo, splitBlocks, specDriverGo]
    split
    · rfl
    · rw [ih, List.drop_drop]

/-- The chunk driver's loop never produces a positive return code: it
either completes (code 0) or stops at a negative primitive code. -/
theorem updateChunkedGo_ret_nonpos {σ : Type} (p : StreamPrim σ) (bsize : Nat)
    (achunk : Buffer) :
    ∀ (n : Nat) (s : σ) (iidx oidx : Nat) (buf : Buffer),
      (updateChunkedGo p bsize achunk n s iidx oidx buf).2.1 ≤ 0 := by
  intro n
  induction n with
  | zero => intro s iidx oidx buf; simp [updateChunkedGo]
  | succ n ih =>
    intro s iidx oidx buf
    simp only [updateChunkedGo]
    split
    · next h => exact le_of_lt h
    · exact ih _ _ _ _

/-- `update_chunked` assigns its by-reference `osize` parameter exactly when
it succeeds. -/
theorem update_chunked_osize_none {σ : Type} (p : StreamPrim σ) (bsize : Nat)
    (s : σ) (achunk buf : Buffer) :
    (update_chunked p bsize s achunk buf).2.2.2 = Option.none ↔
      (update_chunked p bsize s achunk buf).2.1 ≠ 0 := by
  simp only [update_chunked]
  split
  · simp [MBEDTLS_ERR_CIPHER_FULL_BLOCK_EXPECTED]
  · split
    · next h => simp; omega
    · simp

/-! ## Claim theorems -/

/-- C8: `padding(none)` is a no-op that never fails: it performs no
primitive call (the result does not depend on the primitive at all) and
returns the context state completely unchanged; any other padding mode is
forwarded to `mbedtls_cipher_set_padding_mode`. -/
theorem padding_none_noop {σ : Type} (p q : StreamPrim σ) (st : CtxState σ)
    (pad : padding_t) :
    (cipher.padding p st padding_t.none = .ok st ∧
      cipher.padding p st padding_t.none = cipher.padding q st padding_t.none) ∧
    (pad ≠ padding_t.none →
      cipher.padding p st pad =
        (let r := p.set_padding st.ctx pad
         if r.2 ≠ 0 then .error (.exception r.2 "mbedtls_cipher_set_padding_mode")
         else .ok ⟨r.1, st.iv_data⟩)) := by
  refine ⟨⟨rfl, rfl⟩, fun h => ?_⟩
  simp only [cipher.padding, if_neg h]

/-- Witness for C8 at a concrete context: a `none` request leaves the state
untouched, while `pkcs7` is forwarded (and here succeeds). -/
theorem padding_none_noop_witness :
    cipher.padding idStream ⟨[1], [2]⟩ padding_t.none = .ok ⟨[1], [2]⟩ ∧
    cipher.padding idStream ⟨[1], [2]⟩ padding_t.pkcs7 = .ok ⟨[1], [2]⟩ := by
  refine ⟨(padding_none_noop idStream idStream ⟨[1], [2]⟩ padding_t.pkcs7).1.1, ?_⟩
  rw [(padding_none_noop idStream idStream ⟨[1], [2]⟩ padding_t.pkcs7).2 (by decide)]
  rfl

/-- C4: `decrypt_aead` surfaces a primitive `MBEDTLS_ERR_CIPHER_AUTH_FAILED`
as the value `(false, produced plaintext)` without throwing, a zero code as
`(true, plaintext)`, and throws `exception{code}` on any other non-zero
code. -/
theorem decrypt_aead_auth_result (p : AeadPrim) (iv key ad tag input : Buffer)
    (hsetup : p.setup_ret = 0)
    (hkey : p.setkey_ret key cipher_mode.decrypt_mode = 0) :
    ((p.auth_decrypt iv ad tag input).1 = MBEDTLS_ERR_CIPHER_AUTH_FAILED →
      cipher.decrypt_aead p iv key ad tag input =
        .ok (false, (p.auth_decrypt iv ad tag input).2)) ∧
    ((p.auth_decrypt iv ad tag input).1 = 0 →
      cipher.decrypt_aead p iv key ad tag input =
        .ok (true, (p.auth_decrypt iv ad tag input).2)) ∧
    ((p.auth_decrypt iv ad tag input).1 ≠ 0 →
      (p.auth_decrypt iv ad tag input).1 ≠ MBEDTLS_ERR_CIPHER_AUTH_FAILED →
      cipher.decrypt_aead p iv key ad tag input =
        .error (.exception (p.auth_decrypt iv ad tag input).1 "decrypt_aead")) := by
  have hres := resize_writeAt_zero
    (List.replicate (input.length + p.block_size) 0) (p.auth_decrypt iv ad tag input).2
  refine ⟨fun h1 => ?_, fun h2 => ?_, fun h0 ha => ?_⟩ <;>
    simp_all [cipher.decrypt_aead, c_call_zero, exceptBindOk, hsetup, hkey, c_call,
      MBEDTLS_ERR_CIPHER_AUTH_FAILED, exceptThrow]

/-- Witness for C4: a concrete primitive whose tag check fails yields
`(false, plaintext)` as a value. -/
theorem decrypt_aead_auth_result_witness :
    cipher.decrypt_aead authFailAead [1] [2] [3] [4] [9, 9] = .ok (false, [9, 9]) :=
  (decrypt_aead_auth_result authFailAead [1] [2] [3] [4] [9, 9] rfl rfl).1 rfl

/-- C9: on a successful `encrypt_aead` call the returned tag is exactly 16
bytes (the fixed-size tag buffer, for every algorithm), and the returned
ciphertext is the primitive's output truncated to the reported length,
which is at most `input_length + block_size` whenever the primitive honours
its bound. -/
theorem encrypt_aead_tag16 (p : AeadPrim) (iv key ad input : Buffer)
    (hsetup : p.setup_ret = 0)
    (hkey : p.setkey_ret key cipher_mode.encrypt_mode = 0)
    (hok : (p.auth_encrypt iv ad input).1 = 0)
    (htag : (p.auth_encrypt iv ad input).2.2.length ≤ 16)
    (hlen : (p.auth_encrypt iv ad input).2.1.length ≤ input.length + p.block_size) :
    ∃ tag ct, cipher.encrypt_aead p iv key ad input = .ok (tag, ct) ∧
      tag.length = 16 ∧ ct = (p.auth_encrypt iv ad input).2.1 ∧
      ct.length ≤ input.length + p.block_size := by
  refine ⟨writeAt (List.replicate 16 0) 0 (p.auth_encrypt iv ad input).2.2,
    (p.auth_encrypt iv ad input).2.1, ?_, ?_, rfl, hlen⟩
  · have hres := resize_writeAt_zero
      (List.replicate (input.length + p.block_size) 0) (p.auth_encrypt iv ad input).2.1
    simp_all [cipher.encrypt_aead, c_call_zero, exceptBindOk, hsetup, hkey, hok, c_call]
  · rw [writeAt_length (List.replicate 16 0) 0 (p.auth_encrypt iv ad input).2.2
      (by simpa using htag)]
    simp

/-- Witness for C9: a concrete AEAD primitive produces a 16-byte tag and a
2-byte ciphertext for a 2-byte input. -/
theorem encrypt_aead_tag16_witness :
    ∃ tag ct, cipher.encrypt_aead okAead [1] [2] [3] [5, 6] = .ok (tag, ct) ∧
      tag.length = 16 ∧ ct = [5, 6] ∧ ct.length ≤ 2 + 16 := by
  have h := encrypt_aead_tag16 okAead [1] [2] [3] [5, 6] rfl rfl rfl
    (by simp [okAead]) (by simp [okAead])
  simpa [okAead] using h

/-- Shrinking a buffer that starts with `A` to exactly `A`'s length yields
`A`. -/
theorem resize_append_left (A B : Buffer) (m : Nat) (h : A.length = m) :
    resize (A ++ B) m = A := by
  simp [resize, List.take_left' h]
  omega

theorem drop_append_add (X C : Buffer) (k : Nat) :
    (X ++ C).drop (X.length + k) = C.drop k := by
  rw [← List.drop_drop, List.drop_left]

/-- Under a successful setup chain (all four installation calls return 0),
`crypt_engine`'s constructor reduces to the ECB size validation and chunk
computation alone. -/
theorem crypt_engine_init_ok (bm : cipher_bm) (bsize : Nat) (p : CryptPrim)
    (pad : padding_t) (iv key input : Buffer) (m : cipher_mode)
    (hsetup : p.setup_ret = 0) (hpad : p.set_padding_ret pad = 0)
    (hiv : p.set_iv_ret iv = 0) (hkey : p.setkey_ret key m = 0) :
    crypt_engine.init bm bsize p pad iv key input m =
      if bm = cipher_bm.ecb then
        (if input.length = 0 ∨ input.length % bsize ≠ 0 then
          .error (Error.usage_error
            "ecb cipher block: a valid input size must be dividable by block size")
        else .ok ⟨bm, bsize, input.length, input.length / bsize⟩)
      else .ok ⟨bm, bsize, input.length, 1⟩ := by
  simp only [crypt_engine.init, c_call_zero _ hsetup, c_call_zero _ hpad,
    c_call_zero _ hiv, c_call_zero _ hkey, exceptBindOk, ite_self, exceptThrow]
  split <;> rfl

/-- `ecbCryptLoop` fails with exactly the first non-zero per-block code
(as recorded by `ecbList`), and on success its accumulated `osize` is the
sum of the per-call reported lengths. -/
theorem ecbCryptLoop_cases (c1 : Buffer → Int × Buffer) (bsize : Nat)
    (input : Buffer) :
    ∀ (n iidx oidx : Nat) (buf : Buffer) (osize : Nat),
      (∀ e, ecbList c1 bsize n (input.drop iidx) = .error e →
        ecbCryptLoop c1 bsize input n iidx oidx buf osize = .error e) ∧
      (∀ ws, ecbList c1 bsize n (input.drop iidx) = .ok ws →
        ∃ buf', ecbCryptLoop c1 bsize input n iidx oidx buf osize =
          .ok (buf', osize + (ws.map List.length).sum)) := by
  intro n
  induction n with
  | zero =>
    intro iidx oidx buf osize
    constructor
    · intro e he; simp [ecbList] at he
    · intro ws hw
      simp only [ecbList] at hw
      injection hw with h1
      subst h1
      exact ⟨buf, by simp [ecbCryptLoop]⟩
  | succ n ih =>
    intro iidx oidx buf osize
    have hdd : (input.drop iidx).drop bsize = input.drop (iidx + bsize) := by
      rw [List.drop_drop]
    constructor
    · intro e he
      simp only [ecbList] at he
      simp only [ecbCryptLoop]
      by_cases hr : (c1 ((input.drop iidx).take bsize)).1 ≠ 0
      · rw [if_pos hr] at he
        rw [if_pos hr]
        injection he with h1
        rw [h1]
      · rw [if_neg hr] at he
        rw [if_neg hr]
        rw [hdd] at he
        cases hl : ecbList c1 bsize n (input.drop (iidx + bsize)) with
        | error e2 =>
          rw [hl] at he
          simp only [Except.map] at he
          injection he with h1
          subst h1
          exact (ih (iidx + bsize) (oidx + bsize) _ _).1 e2 hl
        | ok ws2 =>
          rw [hl] at he
          simp [Except.map] at he
    · intro ws hw
      simp only [ecbList] at hw
      simp only [ecbCryptLoop]
      by_cases hr : (c1 ((input.drop iidx).take bsize)).1 ≠ 0
      · rw [if_pos hr] at hw
        exact absurd hw (by simp)
      · rw [if_neg hr] at hw
        rw [if_neg hr]
        rw [hdd] at hw
        cases hl : ecbList c1 bsize n (input.drop (iidx + bsize)) with
        | error e2 =>
          rw [hl] at hw
          simp [Except.map] at hw
        | ok ws2 =>
          rw [hl] at hw
          simp only [Except.map] at hw
          injection hw with h1
          subst h1
          obtain ⟨buf', hb⟩ := (ih (iidx + bsize) (oidx + bsize)
            (writeAt buf oidx (c1 ((input.drop iidx).take bsize)).2)
            (osize + (c1 ((input.drop iidx).take bsize)).2.length)).2 ws2 hl
          refine ⟨buf', ?_⟩
          rw [hb]
          simp only [List.map_cons, List.sum_cons]
          rw [Nat.add_assoc]

/-- A successful `ecbCryptLoop` run whose per-call outputs are all exactly
one block long writes them contiguously: the final buffer is the
concatenation of the outputs framed by the untouched parts of the original
buffer, and the accumulated size is `n * bsize`. -/
theorem ecbCryptLoop_ok_join (c1 : Buffer → Int × Buffer) (bsize : Nat)
    (input : Buffer) :
    ∀ (n iidx oidx : Nat) (buf : Buffer) (osize : Nat) (ws : List Buffer),
      ecbList c1 bsize n (input.drop iidx) = .ok ws →
      (∀ w ∈ ws, w.length = bsize) →
      oidx + n * bsize ≤ buf.length →
      ecbCryptLoop c1 bsize input n iidx oidx buf osize =
        .ok (buf.take oidx ++ ws.flatten ++ buf.drop (oidx + n * bsize),
          osize + n * bsize) := by
  intro n
  induction n with
  | zero =>
    intro iidx oidx buf osize ws hw hlen hb
    simp only [ecbList] at hw
    injection hw with h1
    subst h1
    simp [ecbCryptLoop, List.take_append_drop]
  | succ n ih =>
    intro iidx oidx buf osize ws hw hlen hb
    simp only [ecbList] at hw
    by_cases hr : (c1 ((input.drop iidx).take bsize)).1 ≠ 0
    · rw [if_pos hr] at hw
      exact absurd hw (by simp)
    · rw [if_neg hr] at hw
      have hdd : (input.drop iidx).drop bsize = input.drop (iidx + bsize) := by
        rw [List.drop_drop]
      rw [hdd] at hw
      cases hl : ecbList c1 bsize n (input.drop (iidx + bsize)) with
      | error e2 =>
        rw [hl] at hw
        simp [Except.map] at hw
      | ok ws2 =>
        rw [hl] at hw
        simp only [Except.map] at hw
        injection hw with h1
        subst h1
        have hw0 : (c1 ((input.drop iidx).take bsize)).2.length = bsize :=
          hlen _ (List.mem_cons_self _ _)
        have hws2 : ∀ w ∈ ws2, w.length = bsize :=
          fun w hm => hlen w (List.mem_cons_of_mem _ hm)
        have hob : oidx + bsize ≤ buf.length := by
          have := hb
          rw [Nat.succ_mul] at this
          omega
        have hwb : (writeAt buf oidx (c1 ((input.drop iidx).take bsize)).2).length
            = buf.length := by
          rw [writeAt_length buf oidx _ (by omega)]
        have hb2 : (oidx + bsize) + n * bsize ≤
            (writeAt buf oidx (c1 ((input.drop iidx).take bsize)).2).length := by
          rw [hwb]
          rw [Nat.succ_mul] at hb
          omega
        simp only [ecbCryptLoop, if_neg hr]
        rw [hw0]
        rw [ih (iidx + bsize) (oidx + bsize) _ _ ws2 hl hws2 hb2]
        have htk : buf.length = (buf.take oidx).length + (bsize + (buf.drop (oidx + bsize)).length) := by
          rw [List.length_take, List.length_drop]
          omega
        have hA : (buf.take oidx).length = oidx := List.length_take_of_le (by omega)
        have hwrite : writeAt buf oidx (c1 ((input.drop iidx).take bsize)).2 =
            (buf.take oidx ++ (c1 ((input.drop iidx).take bsize)).2) ++
              buf.drop (oidx + bsize) := by
          simp only [writeAt, hw0, List.append_assoc]
        have hpre : ((buf.take oidx ++ (c1 ((input.drop iidx).take bsize)).2) ++
            buf.drop (oidx + bsize)).take (oidx + bsize) =
            buf.take oidx ++ (c1 ((input.drop iidx).take bsize)).2 :=
          List.take_left' (by rw [List.length_append, hA, hw0])
        have hsuf : ((buf.take oidx ++ (c1 ((input.drop iidx).take bsize)).2) ++
            buf.drop (oidx + bsize)).drop ((oidx + bsize) + n * bsize) =
            buf.drop ((oidx + bsize) + n * bsize) := by
          have hx : (buf.take oidx ++ (c1 ((input.drop iidx).take bsize)).2).length
              = oidx + bsize := by rw [List.length_append, hA, hw0]
          calc ((buf.take oidx ++ (c1 ((input.drop iidx).take bsize)).2) ++
              buf.drop (oidx + bsize)).drop ((oidx + bsize) + n * bsize)
              = (buf.drop (oidx + bsize)).drop (n * bsize) := by
                rw [← hx, drop_append_add]
            _ = buf.drop ((oidx + bsize) + n * bsize) := by rw [List.drop_drop]
        rw [hwrite, hpre, hsuf]
        congr 1
        simp only [Prod.mk.injEq]
        constructor
        · have hidx : oidx + bsize + n * bsize = oidx + (n + 1) * bsize := by
            rw [Nat.succ_mul]
            omega
          rw [hidx]
          simp [List.flatten_cons, List.append_assoc]
        · rw [Nat.succ_mul]
          omega

/-- Per-block round trip: if every encrypted block decrypts back to its
plaintext block and successful block encryptions are block-sized, then the
block-wise decryption of the concatenated ciphertext blocks recovers all
the plaintext blocks. -/
theorem ecbList_roundtrip (enc1 dec1 : Buffer → Int × Buffer) (bsize : Nat)
    (henc : ∀ x, x.length = bsize → (enc1 x).1 = 0 → (enc1 x).2.length = bsize)
    (hrt : ∀ x, (enc1 x).1 = 0 → dec1 (enc1 x).2 = (0, x)) :
    ∀ (n : Nat) (rest : Buffer), rest.length = n * bsize →
      ∀ ws, ecbList enc1 bsize n rest = .ok ws →
        (∀ w ∈ ws, w.length = bsize) ∧ ws.flatten.length = n * bsize ∧
        ∃ vs, ecbList dec1 bsize n ws.flatten = .ok vs ∧
          (∀ v ∈ vs, v.length = bsize) ∧ vs.flatten = rest := by
  intro n
  induction n with
  | zero =>
    intro rest hr ws hw
    simp only [ecbList] at hw
    injection hw with h1
    subst h1
    have hrest : rest = [] := List.length_eq_zero.mp (by omega)
    exact ⟨by simp, by simp, [], by simp [ecbList], by simp, by simp [hrest]⟩
  | succ n ih =>
    intro rest hr ws hw
    simp only [ecbList] at hw
    by_cases hc : (enc1 (rest.take bsize)).1 ≠ 0
    · rw [if_pos hc] at hw
      exact absurd hw (by simp)
    · rw [if_neg hc] at hw
      push_neg at hc
      cases hl : ecbList enc1 bsize n (rest.drop bsize) with
      | error e =>
        rw [hl] at hw
        simp [Except.map] at hw
      | ok ws2 =>
        rw [hl] at hw
        simp only [Except.map] at hw
        injection hw with h1
        subst h1
        have hr' : rest.length = n * bsize + bsize := by rw [hr, Nat.succ_mul]
        have htb : (rest.take bsize).length = bsize := by
          rw [List.length_take]
          omega
        have hw0 : (enc1 (rest.take bsize)).2.length = bsize := henc _ htb hc
        have hdr : (rest.drop bsize).length = n * bsize := by
          rw [List.length_drop]
          omega
        obtain ⟨hlens2, hflat2, vs2, hrun2, hvlens2, hjoin2⟩ := ih _ hdr ws2 hl
        refine ⟨?_, ?_, rest.take bsize :: vs2, ?_, ?_, ?_⟩
        · intro w hm
          rcases List.mem_cons.mp hm with h | h
          · rw [h, hw0]
          · exact hlens2 w h
        · simp only [List.flatten_cons, List.length_append, hw0, hflat2]
          rw [Nat.succ_mul]
          omega
        · simp only [List.flatten_cons, ecbList]
          rw [List.take_left' hw0, List.drop_left' hw0]
          rw [hrt _ hc]
          simp only [ne_eq]
          rw [if_neg (by simp)]
          rw [hrun2]
          rfl
        · intro v hm
          rcases List.mem_cons.mp hm with h | h
          · rw [h, htb]
          · exact hvlens2 v h
        · simp only [List.flatten_cons, hjoin2, List.take_append_drop]

/-- A successful `cipher::iv` stores exactly the supplied IV bytes as the
remembered IV. -/
theorem cipher_iv_ok_iv_data {σ : Type} (p : StreamPrim σ) (st : CtxState σ)
    (d : Buffer) (st' : CtxState σ) (h : cipher.iv p st d = .ok st') :
    st'.iv_data = d := by
  simp only [cipher.iv] at h
  split at h
  · simp at h
  · injection h with h1
    rw [← h1]

/-- A successful `cipher::update` never modifies the remembered IV. -/
theorem cipher_update_iv_data {σ : Type} (p : StreamPrim σ) (bm : cipher_bm)
    (bsize : Nat) (st : CtxState σ) (c : Buffer) (st' : CtxState σ) (out : Buffer)
    (h : cipher.update p bm bsize st c = .ok (st', out)) :
    st'.iv_data = st.iv_data := by
  simp only [cipher.update] at h
  split at h <;> split at h
  · exact absurd h (by simp)
  · injection h with h1
    injection h1 with ha hb
    rw [← ha]
  · exact absurd h (by simp)
  · injection h with h1
    injection h1 with ha hb
    rw [← ha]

/-- A successful `cipher::finish` never modifies the remembered IV. -/
theorem cipher_finish_iv_data {σ : Type} (p : StreamPrim σ) (bsize : Nat)
    (st : CtxState σ) (st' : CtxState σ) (out : Buffer)
    (h : cipher.finish p bsize st = .ok (st', out)) :
    st'.iv_data = st.iv_data := by
  simp only [cipher.finish] at h
  split at h
  · exact absurd h (by simp)
  · injection h with h1
    injection h1 with ha hb
    rw [← ha]

/-- C3 counterexample: the claim states that *any* non-zero primitive code
(positive or negative) aborts the loop and is propagated.  The source tests
`ret < 0` only.  With a primitive whose first per-block call returns the
positive code 5, the driver ignores it, continues with the second block and
returns 0 (success) — the non-zero code is neither aborted on nor
propagated. -/
theorem chunk_driver_positive_code_counterexample :
    (posRetStream.update 0 (([7, 7, 8, 8] : Buffer).take 2)).ret = 5 ∧
    (update_chunked posRetStream 2 0 [7, 7, 8, 8] (List.replicate 40 0)).2.1 = 0 :=
  ⟨rfl, rfl⟩

/-- C3 (amended): the ECB chunk driver behaves exactly as the reference
driver written from the spec: it splits the block-aligned input into
`length / bsize` exact blocks, feeds the primitive one block per call,
accumulates each call's reported output length, and aborts immediately —
propagating that exact code — on any *negative* primitive return code
(non-negative codes, i.e. 0 and the out-of-contract positive codes, let the
loop continue). -/
theorem update_chunked_eq_specChunkDriver {σ : Type} (p : StreamPrim σ)
    (bsize : Nat) (s : σ) (achunk buf : Buffer) :
    update_chunked p bsize s achunk buf = specChunkDriver p bsize s achunk buf := by
  simp only [update_chunked, specChunkDriver, updateChunkedGo_eq_spec, List.drop_zero]

/-- C2 counterexample: the claim states a zero-length ECB streaming update
fails with `FullBlockExpected`; in the source `0 % block_size == 0`, so the
driver runs zero iterations and succeeds, reporting zero output bytes. -/
theorem ecb_zero_length_stream_counterexample :
    (update_chunked idStream 16 [] ([] : Buffer) (List.replicate 80 0)).2.1 = 0 ∧
    (update_chunked idStream 16 [] ([] : Buffer) (List.replicate 80 0)).2.2.2 =
      Option.some 0 ∧
    (0 : Int) ≠ MBEDTLS_ERR_CIPHER_FULL_BLOCK_EXPECTED := by
  refine ⟨rfl, rfl, by decide⟩

/-- C2 (amended): for ECB one-shot operations, an input whose length is
zero or not a multiple of the block size fails with `UsageError` at
construction of the operation (for every primitive `crypt` function, i.e.
before any crypt call); a positive multiple yields chunk count
`input_length / block_size`; every non-ECB mode yields chunk count 1.  A
*streaming* ECB update fails with `FullBlockExpected` exactly when the
length is not a multiple of the block size — a zero-length input is
accepted and simply produces no output (zero primitive calls, zero bytes);
no input is ever silently truncated or padded. -/
theorem ecb_size_validation {σ : Type} (bm : cipher_bm) (bsize : Nat)
    (p : CryptPrim) (ps : StreamPrim σ) (pad : padding_t)
    (iv key input : Buffer) (m : cipher_mode) (s : σ) (buf : Buffer)
    (hsetup : p.setup_ret = 0) (hpad : p.set_padding_ret pad = 0)
    (hiv : p.set_iv_ret iv = 0) (hkey : p.setkey_ret key m = 0) :
    (bm = cipher_bm.ecb → input.length = 0 ∨ input.length % bsize ≠ 0 →
      crypt_engine.init bm bsize p pad iv key input m =
        .error (Error.usage_error
          "ecb cipher block: a valid input size must be dividable by block size")) ∧
    (bm = cipher_bm.ecb → input.length ≠ 0 → input.length % bsize = 0 →
      crypt_engine.init bm bsize p pad iv key input m =
        .ok ⟨bm, bsize, input.length, input.length / bsize⟩) ∧
    (bm ≠ cipher_bm.ecb →
      crypt_engine.init bm bsize p pad iv key input m =
        .ok ⟨bm, bsize, input.length, 1⟩) ∧
    (input.length % bsize ≠ 0 →
      update_chunked ps bsize s input buf =
        (s, MBEDTLS_ERR_CIPHER_FULL_BLOCK_EXPECTED, buf, Option.none)) ∧
    (input.length = 0 →
      update_chunked ps bsize s input buf = (s, 0, buf, Option.some 0)) := by
  refine ⟨fun hbm hsz => ?_, fun hbm hnz hmod => ?_, fun hbm => ?_,
    fun hmod => ?_, fun hz => ?_⟩
  · rcases hsz with h | h <;>
      simp [crypt_engine.init, c_call_zero, exceptBindOk, hsetup, hpad, hiv, hkey,
        c_call, hbm, h, exceptThrow]
  · simp [crypt_engine.init, c_call_zero, exceptBindOk, hsetup, hpad, hiv, hkey,
      c_call, hbm, hnz, hmod]
  · simp [crypt_engine.init, c_call_zero, exceptBindOk, hsetup, hpad, hiv, hkey,
      c_call, hbm]
  · simp [update_chunked, hmod]
  · simp [update_chunked, hz, updateChunkedGo, Nat.zero_mod, Nat.zero_div]

/-- Witness for C2 at concrete inputs: a 5-byte input to a 4-byte-block ECB
one-shot fails with `UsageError`; an 8-byte input yields 2 chunks; CBC
yields 1 chunk; a 5-byte streaming chunk fails with `FullBlockExpected`. -/
theorem ecb_size_validation_witness :
    cipher.encrypt cipher_bm.ecb 4 idCrypt padding_t.none [] [] [1, 2, 3, 4, 5] =
      .error (Error.usage_error
        "ecb cipher block: a valid input size must be dividable by block size") ∧
    crypt_engine.init cipher_bm.ecb 4 idCrypt padding_t.none [] [] [1, 2, 3, 4, 5, 6, 7, 8]
      cipher_mode.encrypt_mode = .ok ⟨cipher_bm.ecb, 4, 8, 2⟩ ∧
    crypt_engine.init cipher_bm.cbc 4 idCrypt padding_t.none [] [] [1, 2, 3]
      cipher_mode.encrypt_mode = .ok ⟨cipher_bm.cbc, 4, 3, 1⟩ ∧
    (update_chunked idStream 4 [] [1, 2, 3, 4, 5] (List.replicate 41 0)).2.1 =
      MBEDTLS_ERR_CIPHER_FULL_BLOCK_EXPECTED := by
  have h1 := (ecb_size_validation cipher_bm.ecb 4 idCrypt idStream padding_t.none
    [] [] [1, 2, 3, 4, 5] cipher_mode.encrypt_mode [] (List.replicate 41 0)
    rfl rfl rfl rfl).1 rfl (by simp)
  have h2 := (ecb_size_validation cipher_bm.ecb 4 idCrypt idStream padding_t.none
    [] [] [1, 2, 3, 4, 5, 6, 7, 8] cipher_mode.encrypt_mode [] (List.replicate 41 0)
    rfl rfl rfl rfl).2.1 rfl (by simp) (by simp)
  have h3 := (ecb_size_validation cipher_bm.cbc 4 idCrypt idStream padding_t.none
    [] [] [1, 2, 3] cipher_mode.encrypt_mode [] (List.replicate 41 0)
    rfl rfl rfl rfl).2.2.1 (by decide)
  have h4 := (ecb_size_validation cipher_bm.ecb 4 idCrypt idStream padding_t.none
    [] [] [1, 2, 3, 4, 5] cipher_mode.encrypt_mode [] (List.replicate 41 0)
    rfl rfl rfl rfl).2.2.2.1 (by simp)
  refine ⟨?_, by simpa using h2, by simpa using h3, by rw [h4]⟩
  simp only [cipher.encrypt, h1, Except.bind]

/-- C5: failures never hand the caller partial output.  The chunk driver
assigns its by-reference `osize` exactly when it succeeds, so blocks
written before a mid-stream ECB failure are never declared as valid output;
and each buffer-returning operation (`update` in both modes, `finish`)
turns any non-zero underlying code into a thrown exception, so no buffer is
returned at all.  (The AEAD tag-check-failure value is the deliberate
exception, see C4.) -/
theorem failure_no_partial_output {σ : Type} (p : StreamPrim σ) (bsize : Nat)
    (s : σ) (st : CtxState σ) (input : Buffer) (buf : Buffer) :
    ((update_chunked p bsize s input buf).2.2.2 = Option.none ↔
      (update_chunked p bsize s input buf).2.1 ≠ 0) ∧
    ((update_chunked p bsize st.ctx input
        (List.replicate (input.length + bsize + 32) 0)).2.1 ≠ 0 →
      cipher.update p cipher_bm.ecb bsize st input =
        .error (.exception (update_chunked p bsize st.ctx input
          (List.replicate (input.length + bsize + 32) 0)).2.1 "update")) ∧
    (∀ bm, bm ≠ cipher_bm.ecb → (p.update st.ctx input).ret ≠ 0 →
      cipher.update p bm bsize st input =
        .error (.exception (p.update st.ctx input).ret "mbedtls_cipher_update")) ∧
    ((p.finish st.ctx).ret ≠ 0 →
      cipher.finish p bsize st =
        .error (.exception (p.finish st.ctx).ret "mbedtls_cipher_finish")) := by
  refine ⟨update_chunked_osize_none p bsize s input buf, fun h => ?_,
    fun bm hbm h => ?_, fun h => ?_⟩
  · simp [cipher.update, h]
  · simp [cipher.update, hbm, h]
  · simp [cipher.finish, h]

/-- Witness for C5: with the primitive that fails every block with a
negative code, a concrete ECB `update` throws and the raw driver leaves the
output-size variable unassigned. -/
theorem failure_no_partial_output_witness :
    (update_chunked idStream 4 [] [1, 2, 3] (List.replicate 39 0)).2.2.2 =
      Option.none ∧
    cipher.update idStream cipher_bm.ecb 4 ⟨[], []⟩ [1, 2, 3] =
      .error (.exception MBEDTLS_ERR_CIPHER_FULL_BLOCK_EXPECTED "update") := by
  have h := failure_no_partial_output idStream 4 [] ⟨[], []⟩ [1, 2, 3]
    (List.replicate 39 0)
  refine ⟨(h.1).mpr (by decide), ?_⟩
  have h2 := h.2.1 (by decide)
  simpa using h2

/-- C10: the `noexcept` overloads of `update` and `finish` are total
functions returning the underlying numeric code unchanged — 0 on success,
the raw non-zero primitive (or chunk-driver) code on failure — and the
caller's `output_size` variable receives the produced length exactly on
success: on failure it keeps its previous value (for the pass-through
non-ECB/finish paths this relies on the primitive contract of assigning
`*olen` only on success). -/
theorem noexcept_overloads_relay {σ : Type} (p : StreamPrim σ) (bm : cipher_bm)
    (bsize : Nat) (st : CtxState σ) (input output : Buffer) (osz : Nat)
    (hupd : (p.update st.ctx input).ret ≠ 0 →
      (p.update st.ctx input).olen = Option.none)
    (hfin : (p.finish st.ctx).ret ≠ 0 → (p.finish st.ctx).olen = Option.none) :
    (bm = cipher_bm.ecb →
      (cipher.updateNX p bm bsize st input output osz).2.1 =
        (update_chunked p bsize st.ctx input output).2.1 ∧
      ((update_chunked p bsize st.ctx input output).2.1 ≠ 0 →
        (cipher.updateNX p bm bsize st input output osz).2.2.2 = osz) ∧
      (∀ k, (update_chunked p bsize st.ctx input output).2.2.2 = Option.some k →
        (cipher.updateNX p bm bsize st input output osz).2.2.2 = k)) ∧
    (bm ≠ cipher_bm.ecb →
      (cipher.updateNX p bm bsize st input output osz).2.1 =
        (p.update st.ctx input).ret ∧
      ((p.update st.ctx input).ret ≠ 0 →
        (cipher.updateNX p bm bsize st input output osz).2.2.2 = osz) ∧
      (∀ k, (p.update st.ctx input).olen = Option.some k →
        (cipher.updateNX p bm bsize st input output osz).2.2.2 = k)) ∧
    ((cipher.finishNX p st output osz).2.1 = (p.finish st.ctx).ret ∧
      ((p.finish st.ctx).ret ≠ 0 →
        (cipher.finishNX p st output osz).2.2.2 = osz) ∧
      (∀ k, (p.finish st.ctx).olen = Option.some k →
        (cipher.finishNX p st output osz).2.2.2 = k)) := by
  refine ⟨fun hbm => ⟨?_, fun h => ?_, fun k hk => ?_⟩,
    fun hbm => ⟨?_, fun h => ?_, fun k hk => ?_⟩, ?_, fun h => ?_, fun k hk => ?_⟩
  · simp [cipher.updateNX, hbm]
  · have hn := (update_chunked_osize_none p bsize st.ctx input output).mpr h
    simp [cipher.updateNX, hbm, hn]
  · simp [cipher.updateNX, hbm, hk]
  · simp [cipher.updateNX, hbm]
  · simp [cipher.updateNX, hbm, hupd h]
  · simp [cipher.updateNX, hbm, hk]
  · simp [cipher.finishNX]
  · simp [cipher.finishNX, hfin h]
  · simp [cipher.finishNX, hk]

/-- Witness for C10 at a concrete context: a misaligned ECB chunk makes the
raw overload return `FullBlockExpected` while the caller's `output_size`
variable keeps its prior value 77; an aligned chunk returns 0 and stores
the produced length. -/
theorem noexcept_overloads_relay_witness :
    (cipher.updateNX idStream cipher_bm.ecb 4 ⟨[], []⟩ [1, 2, 3]
      (List.replicate 39 0) 77).2.1 = MBEDTLS_ERR_CIPHER_FULL_BLOCK_EXPECTED ∧
    (cipher.updateNX idStream cipher_bm.ecb 4 ⟨[], []⟩ [1, 2, 3]
      (List.replicate 39 0) 77).2.2.2 = 77 ∧
    (cipher.updateNX idStream cipher_bm.ecb 4 ⟨[], []⟩ [1, 2, 3, 4]
      (List.replicate 40 0) 77).2.1 = 0 ∧
    (cipher.updateNX idStream cipher_bm.ecb 4 ⟨[], []⟩ [1, 2, 3, 4]
      (List.replicate 40 0) 77).2.2.2 = 4 := by
  have hbad := noexcept_overloads_relay idStream cipher_bm.ecb 4 ⟨[], []⟩ [1, 2, 3]
    (List.replicate 39 0) 77 (by intro h; exact absurd rfl h) (by intro h; exact absurd rfl h)
  have hgood := noexcept_overloads_relay idStream cipher_bm.ecb 4 ⟨[], []⟩ [1, 2, 3, 4]
    (List.replicate 40 0) 77 (by intro h; exact absurd rfl h) (by intro h; exact absurd rfl h)
  refine ⟨?_, (hbad.1 rfl).2.1 (by decide), ?_, (hgood.1 rfl).2.2 4 rfl⟩
  · rw [(hbad.1 rfl).1]; rfl
  · rw [(hgood.1 rfl).1]; rfl

/-- C7: restart semantics.  `start()` re-installs the remembered last-set
IV before resetting the primitive; given the primitive contract that the
post-start state is a function of the installed IV alone (`Hstart`),
re-running `start(); update*; finish()` from *any* running state carrying
the same remembered IV — in particular from the state left behind by a
previous `finish()` — reproduces exactly the same outputs as the first
run.  Moreover neither `update` nor `finish` touches the remembered IV
(the IV is never implicitly advanced), and a second consecutive `start()`
is harmless (start-then-start equals one start). -/
theorem restart_reproduces {σ : Type} (p : StreamPrim σ) (bm : cipher_bm)
    (bsize : Nat) (ivd : Buffer) (msg : List Buffer)
    (Hstart : ∀ s s' : σ, cipher.start p ⟨s, ivd⟩ = cipher.start p ⟨s', ivd⟩) :
    (∀ s s' : σ,
      run_message p bm bsize msg ⟨s, ivd⟩ = run_message p bm bsize msg ⟨s', ivd⟩) ∧
    (∀ (s : σ) st', cipher.start p ⟨s, ivd⟩ = .ok st' → st'.iv_data = ivd) ∧
    (∀ (st : CtxState σ) c st' out,
      cipher.update p bm bsize st c = .ok (st', out) → st'.iv_data = st.iv_data) ∧
    (∀ (st : CtxState σ) st' out,
      cipher.finish p bsize st = .ok (st', out) → st'.iv_data = st.iv_data) ∧
    (∀ s : σ, (cipher.start p ⟨s, ivd⟩).bind (fun st1 => cipher.start p st1) =
      cipher.start p ⟨s, ivd⟩) := by
  have hst : ∀ (s : σ) st', cipher.start p ⟨s, ivd⟩ = .ok st' → st'.iv_data = ivd := by
    intro s st' h
    simp only [cipher.start] at h
    split at h
    · exact absurd h (by simp)
    · next st1 hiv =>
      split at h
      · exact absurd h (by simp)
      · injection h with h1
        rw [← h1]
        exact cipher_iv_ok_iv_data p ⟨s, ivd⟩ _ st1 hiv
  refine ⟨fun s s' => ?_, hst,
    fun st c st' out h => cipher_update_iv_data p bm bsize st c st' out h,
    fun st st' out h => cipher_finish_iv_data p bsize st st' out h,
    fun s => ?_⟩
  · simp only [run_message]
    rw [Hstart s s']
  · cases hs : cipher.start p ⟨s, ivd⟩ with
    | error e => rfl
    | ok st1 =>
      have h1 : st1.iv_data = ivd := hst s st1 hs
      have h2 : st1 = ⟨st1.ctx, ivd⟩ := by cases st1; simp_all
      show cipher.start p st1 = _
      rw [h2, Hstart st1.ctx s, hs]
      exact congrArg Except.ok h2

/-- Witness for C7: a concrete primitive whose post-start state is the
installed IV; two different prior running states produce identical
two-update messages, and the restart-idempotence and IV-stability
conclusions hold at those inputs. -/
theorem restart_reproduces_witness :
    run_message idStream cipher_bm.cbc 4 [[1, 2], [3]] ⟨[9, 9], [5, 5]⟩ =
      run_message idStream cipher_bm.cbc 4 [[1, 2], [3]] ⟨[0], [5, 5]⟩ ∧
    (cipher.start idStream ⟨[9, 9], [5, 5]⟩).bind (fun st1 => cipher.start idStream st1) =
      cipher.start idStream ⟨[9, 9], [5, 5]⟩ := by
  have h := restart_reproduces idStream cipher_bm.cbc 4 [5, 5] [[1, 2], [3]]
    (fun s s' => rfl)
  exact ⟨h.1 [9, 9] [0], h.2.2.2.2 [9, 9]⟩

/-- C1: one-shot round trip.  For every configuration (block mode and
block size from the registry, padding, IV, key) whose setup chain the
primitive accepts, and every input the one-shot encrypt accepts, decrypting
the produced ciphertext with the same type, padding, IV and key returns
exactly the original input.  The primitive contract assumed is the
round-trip property of the underlying whole-buffer `mbedtls_cipher_crypt`
(`hrt`), plus — for the per-block ECB path — that successful block
encryptions produce exactly one block (`henc`). -/
theorem encrypt_decrypt_roundtrip (bm : cipher_bm) (bsize : Nat) (p : CryptPrim)
    (pad : padding_t) (iv key input c : Buffer)
    (hbs : 0 < bsize)
    (hsetup : p.setup_ret = 0) (hpad : p.set_padding_ret pad = 0)
    (hiv : p.set_iv_ret iv = 0)
    (hkey : ∀ m, p.setkey_ret key m = 0)
    (henc : bm = cipher_bm.ecb → ∀ x, x.length = bsize →
      (p.crypt cipher_mode.encrypt_mode iv x).1 = 0 →
      (p.crypt cipher_mode.encrypt_mode iv x).2.length = bsize)
    (hrt : ∀ x, (p.crypt cipher_mode.encrypt_mode iv x).1 = 0 →
      p.crypt cipher_mode.decrypt_mode iv
        (p.crypt cipher_mode.encrypt_mode iv x).2 = (0, x))
    (hok : cipher.encrypt bm bsize p pad iv key input = .ok c) :
    cipher.decrypt bm bsize p pad iv key c = .ok input := by
  have hinitE := crypt_engine_init_ok bm bsize p pad iv key input
    cipher_mode.encrypt_mode hsetup hpad hiv (hkey _)
  have hinitD := crypt_engine_init_ok bm bsize p pad iv key c
    cipher_mode.decrypt_mode hsetup hpad hiv (hkey _)
  simp only [cipher.encrypt, hinitE] at hok
  simp only [cipher.decrypt, hinitD]
  by_cases hbm : bm = cipher_bm.ecb
  · -- ECB
    rw [if_pos hbm] at hok
    rw [if_pos hbm]
    by_cases hval : input.length = 0 ∨ input.length % bsize ≠ 0
    · rw [if_pos hval] at hok
      simp [Except.bind] at hok
    · rw [if_neg hval] at hok
      push_neg at hval
      obtain ⟨hL0, hLmod⟩ := hval
      have hdvd : bsize ∣ input.length := Nat.dvd_of_mod_eq_zero hLmod
      have hL : input.length = input.length / bsize * bsize :=
        (Nat.div_mul_cancel hdvd).symm
      have hn0 : input.length / bsize ≠ 0 := by
        intro h
        rw [h, Nat.zero_mul] at hL
        exact hL0 hL
      simp only [Except.bind, crypt_engine.compute, crypt_engine.output_size] at hok
      by_cases hn1 : input.length / bsize = 1
      · -- one single block: the engine takes the single-shot path
        rw [hn1] at hok
        rw [if_pos rfl] at hok
        have hLb : input.length = bsize := by rw [hL, hn1, Nat.one_mul]
        by_cases hcr : (p.crypt cipher_mode.encrypt_mode iv input).1 ≠ 0
        · rw [if_pos hcr] at hok
          exact absurd hok (by simp)
        · rw [if_neg hcr] at hok
          push_neg at hcr
          injection hok with h1
          rw [resize_writeAt_zero] at h1
          have hcb : c.length = bsize := by
            rw [← h1]
            exact henc hbm input hLb hcr
          rw [if_neg (by rw [hcb]; simp [Nat.mod_self]; omega)]
          simp only [Except.bind, crypt_engine.compute, crypt_engine.output_size]
          rw [hcb, Nat.div_self hbs]
          rw [if_pos rfl]
          rw [← h1, hrt input hcr]
          rw [if_neg (by simp)]
          rw [resize_writeAt_zero]
      · -- at least two blocks: the engine drives the per-block loop
        rw [if_neg hn1] at hok
        cases hLst : ecbList (p.crypt cipher_mode.encrypt_mode iv) bsize
            (input.length / bsize) input with
        | error e =>
          rw [(ecbCryptLoop_cases (p.crypt cipher_mode.encrypt_mode iv) bsize input
            (input.length / bsize) 0 0
            (List.replicate (32 + input.length + bsize) 0) 0).1 e
            (by rw [List.drop_zero]; exact hLst)] at hok
          exact absurd hok (by simp)
        | ok ws =>
          obtain ⟨hlens, hflatlen, vs, hrun, hvlens, hjoin⟩ :=
            ecbList_roundtrip (p.crypt cipher_mode.encrypt_mode iv)
              (p.crypt cipher_mode.decrypt_mode iv) bsize (henc hbm) hrt
              (input.length / bsize) input hL ws hLst
          rw [ecbCryptLoop_ok_join (p.crypt cipher_mode.encrypt_mode iv) bsize input
            (input.length / bsize) 0 0
            (List.replicate (32 + input.length + bsize) 0) 0 ws
            (by rw [List.drop_zero]; exact hLst) hlens
            (by rw [List.length_replicate]; omega)] at hok
          simp only [List.take_zero, List.nil_append, Nat.zero_add] at hok
          injection hok with h1
          rw [resize_append_left _ _ _ hflatlen] at h1
          have hcL : c.length = input.length / bsize * bsize := by
            rw [← h1]
            exact hflatlen
          have hcpos : c.length ≠ 0 := by
            rw [hcL]
            exact Nat.mul_ne_zero hn0 (by omega)
          have hdivc : c.length / bsize = input.length / bsize := by
            rw [hcL, Nat.mul_div_cancel _ hbs]
          rw [if_neg (by
            rw [hcL]
            push_neg
            exact ⟨Nat.mul_ne_zero hn0 (by omega), by simp [Nat.mul_mod_left]⟩)]
          simp only [Except.bind, crypt_engine.compute, crypt_engine.output_size]
          rw [hdivc]
          rw [if_neg hn1]
          have hrunc : ecbList (p.crypt cipher_mode.decrypt_mode iv) bsize
              (input.length / bsize) (c.drop 0) = .ok vs := by
            rw [List.drop_zero, ← h1]
            exact hrun
          rw [ecbCryptLoop_ok_join (p.crypt cipher_mode.decrypt_mode iv) bsize c
            (input.length / bsize) 0 0
            (List.replicate (32 + c.length + bsize) 0) 0 vs hrunc hvlens
            (by rw [List.length_replicate, hcL]; omega)]
          simp only [List.take_zero, List.nil_append, Nat.zero_add]
          rw [resize_append_left _ _ _ (by rw [hjoin]; exact hL)]
          rw [hjoin]
  · -- non-ECB: whole-buffer single shot in both directions
    rw [if_neg hbm] at hok
    rw [if_neg hbm]
    simp only [Except.bind, crypt_engine.compute, crypt_engine.output_size,
      if_true] at hok
    simp only [Except.bind, crypt_engine.compute, crypt_engine.output_size, if_true]
    by_cases hcr : (p.crypt cipher_mode.encrypt_mode iv input).1 ≠ 0
    · rw [if_pos hcr] at hok
      exact absurd hok (by simp)
    · rw [if_neg hcr] at hok
      push_neg at hcr
      injection hok with h1
      rw [resize_writeAt_zero] at h1
      rw [← h1, hrt input hcr]
      rw [if_neg (by simp)]
      rw [resize_writeAt_zero]

/-- Witness for C1: a two-block ECB round trip through the engine with a
concrete primitive, every hypothesis discharged at the concrete input. -/
theorem encrypt_decrypt_roundtrip_witness :
    cipher.decrypt cipher_bm.ecb 2 idCrypt padding_t.none [] [] [1, 2, 3, 4] =
      .ok [1, 2, 3, 4] :=
  encrypt_decrypt_roundtrip cipher_bm.ecb 2 idCrypt padding_t.none [] [] [1, 2, 3, 4]
    [1, 2, 3, 4] (by decide) rfl rfl rfl (fun _ => rfl)
    (fun _ x hx _ => hx) (fun _ _ => rfl) rfl

/-- The block list recorded by `ecbList` has exactly one entry per chunk. -/
theorem ecbList_length (c1 : Buffer → Int × Buffer) (bsize : Nat) :
    ∀ (n : Nat) (rest : Buffer) (ws : List Buffer),
      ecbList c1 bsize n rest = .ok ws → ws.length = n := by
  intro n
  induction n with
  | zero =>
    intro rest ws hw
    simp only [ecbList] at hw
    injection hw with h1
    rw [← h1]
    rfl
  | succ n ih =>
    intro rest ws hw
    simp only [ecbList] at hw
    by_cases hc : (c1 (rest.take bsize)).1 ≠ 0
    · rw [if_pos hc] at hw
      exact absurd hw (by simp)
    · rw [if_neg hc] at hw
      cases hl : ecbList c1 bsize n (rest.drop bsize) with
      | error e =>
        rw [hl] at hw
        simp [Except.map] at hw
      | ok ws2 =>
        rw [hl] at hw
        simp only [Except.map] at hw
        injection hw with h1
        rw [← h1, List.length_cons, ih _ _ hl]

/-- The chunk driver's accumulated output index grows by at most one block
per iteration, provided the primitive never reports more than a block for a
(at most) block-sized input. -/
theorem updateChunkedGo_oidx_le {σ : Type} (q : StreamPrim σ) (bsize : Nat)
    (input : Buffer)
    (hol : ∀ (s : σ) (x : Buffer), x.length ≤ bsize →
      ((q.update s x).olen.getD 0) ≤ bsize) :
    ∀ (n : Nat) (s : σ) (iidx oidx : Nat) (buf : Buffer),
      (updateChunkedGo q bsize input n s iidx oidx buf).2.2.2 ≤ oidx + n * bsize := by
  intro n
  induction n with
  | zero => intro s iidx oidx buf; simp [updateChunkedGo]
  | succ n ih =>
    intro s iidx oidx buf
    simp only [updateChunkedGo]
    split
    · simp [Nat.succ_mul]
    · have h1 := ih (q.update s ((input.drop iidx).take bsize)).st (iidx + bsize)
        (oidx + ((q.update s ((input.drop iidx).take bsize)).olen.getD 0))
        (writeAt buf oidx (q.update s ((input.drop iidx).take bsize)).written)
      have h2 := hol s ((input.drop iidx).take bsize)
        (by rw [List.length_take]; omega)
      rw [Nat.succ_mul]
      omega

/-- On success, the value the chunk driver assigns to `osize` never exceeds
the input length (one reported block length per input block, each at most a
block). -/
theorem update_chunked_osize_le {σ : Type} (q : StreamPrim σ) (bsize : Nat)
    (s : σ) (input buf : Buffer)
    (hol : ∀ (s2 : σ) (x : Buffer), x.length ≤ bsize →
      ((q.update s2 x).olen.getD 0) ≤ bsize) :
    ∀ k, (update_chunked q bsize s input buf).2.2.2 = Option.some k →
      k ≤ input.length := by
  intro k hk
  simp only [update_chunked] at hk
  split at hk
  · simp at hk
  · split at hk
    · simp at hk
    · injection hk with h1
      have h2 := updateChunkedGo_oidx_le q bsize input hol
        (input.length / bsize) s 0 0 buf
      have h3 : input.length / bsize * bsize ≤ input.length :=
        Nat.div_mul_le_self _ _
      omega

/-- C6: output sizing policy.  The one-shot engine allocates
`32 + input_length + block_size`; on the single-chunk path the returned
buffer is truncated to exactly the primitive's reported length, and on the
multi-chunk ECB path to exactly the sum of the per-call reported lengths.
The streaming `update` allocates `input_length + block_size + 32` and
`finish` allocates `block_size + 32`, each truncated to the length assigned
through `osize`.  Whenever the primitive honours its reporting bounds, the
returned length never exceeds `input_length + block_size + 32` (and need
not equal `input_length`). -/
theorem output_sizing {σ : Type} (bm : cipher_bm) (bsize : Nat) (p : CryptPrim)
    (pad : padding_t) (iv key input : Buffer) (m : cipher_mode)
    (q : StreamPrim σ) (st : CtxState σ) (e : crypt_engine)
    (hsetup : p.setup_ret = 0) (hpad : p.set_padding_ret pad = 0)
    (hiv : p.set_iv_ret iv = 0) (hkey : p.setkey_ret key m = 0) :
    (e.output_size = 32 + e.input_size + e.block_size) ∧
    (e.chunks = 1 → ∀ out, e.compute p m iv input = .ok out →
      out.length = (p.crypt m iv input).2.length ∧
      ((p.crypt m iv input).2.length ≤ input.length + e.block_size →
        e.input_size = input.length → out.length ≤ e.output_size)) ∧
    (e.chunks ≠ 1 → ∀ out, e.compute p m iv input = .ok out →
      ∃ ws, ecbList (p.crypt m iv) e.block_size e.chunks input = .ok ws ∧
        out.length = (ws.map List.length).sum ∧
        ((∀ w ∈ ws, w.length ≤ e.block_size) →
          e.chunks * e.block_size ≤ e.input_size →
          out.length ≤ e.output_size)) ∧
    (∀ e2, crypt_engine.init bm bsize p pad iv key input m = .ok e2 →
      e2.input_size = input.length ∧ e2.block_size = bsize ∧
      e2.chunks * e2.block_size ≤ max e2.input_size e2.block_size) ∧
    (∀ st' out, cipher.update q bm bsize st input = .ok (st', out) →
      (bm = cipher_bm.ecb →
        out.length = (update_chunked q bsize st.ctx input
          (List.replicate (input.length + bsize + 32) 0)).2.2.2.getD
            (input.length + bsize + 32) ∧
        ((∀ (s : σ) (x : Buffer), x.length ≤ bsize →
            ((q.update s x).olen.getD 0) ≤ bsize) →
          out.length ≤ input.length + bsize + 32)) ∧
      (bm ≠ cipher_bm.ecb →
        out.length = (q.update st.ctx input).olen.getD (input.length + bsize + 32) ∧
        ((∀ k, (q.update st.ctx input).olen = Option.some k →
            k ≤ input.length + bsize) →
          out.length ≤ input.length + bsize + 32))) ∧
    (∀ st' out, cipher.finish q bsize st = .ok (st', out) →
      out.length = (q.finish st.ctx).olen.getD (bsize + 32) ∧
      ((∀ k, (q.finish st.ctx).olen = Option.some k → k ≤ bsize) →
        out.length ≤ bsize + 32)) := by
  refine ⟨rfl, fun h1 out hout => ?_, fun hn out hout => ?_, fun e2 he2 => ?_,
    fun st' out hout => ⟨fun hbm => ?_, fun hbm => ?_⟩, fun st' out hout => ?_⟩
  · -- single-chunk path
    simp only [crypt_engine.compute] at hout
    rw [if_pos h1] at hout
    by_cases hr : (p.crypt m iv input).1 ≠ 0
    · rw [if_pos hr] at hout
      exact absurd hout (by simp)
    · rw [if_neg hr] at hout
      injection hout with h2
      constructor
      · rw [← h2, resize_length]
      · intro hb hsz
        rw [← h2, resize_length, crypt_engine.output_size, hsz]
        omega
  · -- multi-chunk path
    simp only [crypt_engine.compute] at hout
    rw [if_neg hn] at hout
    cases hLst : ecbList (p.crypt m iv) e.block_size e.chunks input with
    | error err =>
      rw [(ecbCryptLoop_cases (p.crypt m iv) e.block_size input e.chunks 0 0
        (List.replicate e.output_size 0) 0).1 err
        (by rw [List.drop_zero]; exact hLst)] at hout
      exact absurd hout (by simp)
    | ok ws =>
      obtain ⟨buf', hb⟩ := (ecbCryptLoop_cases (p.crypt m iv) e.block_size input
        e.chunks 0 0 (List.replicate e.output_size 0) 0).2 ws
        (by rw [List.drop_zero]; exact hLst)
      rw [hb] at hout
      injection hout with h2
      refine ⟨ws, rfl, ?_, ?_⟩
      · rw [← h2, resize_length, Nat.zero_add]
      · intro hw hch
        rw [← h2, resize_length, Nat.zero_add, crypt_engine.output_size]
        have hsum : (ws.map List.length).sum ≤ ws.length * e.block_size := by
          have := List.sum_le_card_nsmul (ws.map List.length) e.block_size
            (by intro x hx
                obtain ⟨w, hwm, hwx⟩ := List.mem_map.mp hx
                rw [← hwx]
                exact hw w hwm)
          simpa [smul_eq_mul] using this
        have hlen : ws.length = e.chunks := ecbList_length _ _ _ _ _ hLst
        rw [hlen] at hsum
        omega
  · -- engines built by the constructor
    rw [crypt_engine_init_ok bm bsize p pad iv key input m hsetup hpad hiv hkey] at he2
    split at he2
    · split at he2
      · exact absurd he2 (by simp)
      · injection he2 with h2
        rw [← h2]
        refine ⟨rfl, rfl, ?_⟩
        simp only
        have := Nat.div_mul_le_self input.length bsize
        omega
    · injection he2 with h2
      rw [← h2]
      refine ⟨rfl, rfl, ?_⟩
      simp only [Nat.one_mul]
      omega
  · -- streaming update, ECB
    simp only [cipher.update, if_pos hbm] at hout
    split at hout
    · exact absurd hout (by simp)
    · next hret =>
      injection hout with h2
      injection h2 with ha hb
      constructor
      · rw [← hb, resize_length]
      · intro hol
        rw [← hb, resize_length]
        push_neg at hret
        have hs := (update_chunked_osize_none q bsize st.ctx input
          (List.replicate (input.length + bsize + 32) 0))
        cases ho : (update_chunked q bsize st.ctx input
            (List.replicate (input.length + bsize + 32) 0)).2.2.2 with
        | none => simp
        | some k =>
          have := update_chunked_osize_le q bsize st.ctx input
            (List.replicate (input.length + bsize + 32) 0) hol k ho
          simp only [Option.getD_some]
          omega
  · -- streaming update, non-ECB
    simp only [cipher.update, if_neg hbm] at hout
    split at hout
    · exact absurd hout (by simp)
    · injection hout with h2
      injection h2 with ha hb
      constructor
      · rw [← hb, resize_length]
      · intro hol
        rw [← hb, resize_length]
        cases ho : (q.update st.ctx input).olen with
        | none => simp [ho]
        | some k =>
          have := hol k ho
          simp only [ho, Option.getD_some]
          omega
  · -- finish
    simp only [cipher.finish] at hout
    split at hout
    · exact absurd hout (by simp)
    · injection hout with h2
      injection h2 with ha hb
      constructor
      · rw [← hb, resize_length]
      · intro hol
        rw [← hb, resize_length]
        cases ho : (q.finish st.ctx).olen with
        | none => simp [ho]
        | some k =>
          have := hol k ho
          simp only [ho, Option.getD_some]
          omega

/-- Witness for C6 at concrete inputs: a 2-chunk ECB engine allocates
`32 + 4 + 2` bytes, its output length is the sum of the per-call reported
lengths, and a concrete `finish` output respects the `block_size + 32`
bound. -/
theorem output_sizing_witness :
    ((⟨cipher_bm.ecb, 2, 4, 2⟩ : crypt_engine).output_size = 32 + 4 + 2) ∧
    (∃ ws, ecbList (idCrypt.crypt cipher_mode.encrypt_mode []) 2 2 [1, 2, 3, 4] =
        .ok ws ∧ ([1, 2, 3, 4] : Buffer).length = (ws.map List.length).sum) ∧
    ([] : Buffer).length ≤ 2 + 32 := by
  have h := output_sizing cipher_bm.ecb 2 idCrypt padding_t.none [] [] [1, 2, 3, 4]
    cipher_mode.encrypt_mode idStream (⟨[], []⟩ : CtxState Buffer)
    (⟨cipher_bm.ecb, 2, 4, 2⟩ : crypt_engine) rfl rfl rfl rfl
  refine ⟨h.1, ?_, ?_⟩
  · obtain ⟨ws, hws, hsum, _⟩ := h.2.2.1 (by decide) [1, 2, 3, 4] rfl
    exact ⟨ws, hws, hsum⟩
  · exact (h.2.2.2.2.2 ⟨[], []⟩ [] rfl).2 (fun k hk => by
      injection hk with h1
      omega)

end Mbedcrypto
